import Mathlib

/-!
Verification of the `dj` storage/versioning core against its specification.

The development shallowly embeds the final shape of the source
(`src/path.rs`, `src/lib.rs`, `src/store/mod.rs`, `src/store/file_store.rs`,
`src/changes.rs`).  Paths and text are modelled as `List Char`, raw bytes as
`List Nat`; file-system state touched by the store is an explicit record and
mutating operations return the new state (plus, for `generate_step`, the
trace of write operations they perform).  External libraries are modelled at
their interface: the blake3 digest is an abstract function parameter
(instantiated with an injective stand-in for concrete evaluations), and the
`base64` crate's URL_SAFE engine, Rust's UTF-8 validation and std's path
semantics are re-implemented faithfully below.
-/

deriving instance DecidableEq for Except

/-- Text (Rust `String` / `PathBuf` rendered text) as a list of characters. -/
abbrev Str := List Char

/-- Raw bytes (Rust `Vec<u8>` / `[u8]`) as a list of naturals below 256. -/
abbrev Bytes := List Nat

/-! ## base64 (URL_SAFE engine of the `base64` crate, with padding) -/

/-- Character of the URL-safe base64 alphabet for a 6-bit value. -/
def b64Char (n : Nat) : Char :=
  if n < 26 then Char.ofNat (65 + n)
  else if n < 52 then Char.ofNat (97 + (n - 26))
  else if n < 62 then Char.ofNat (48 + (n - 52))
  else if n = 62 then '-'
  else '_'

/-- Six-bit value of a URL-safe base64 character, `none` outside the alphabet. -/
def b64Val (c : Char) : Option Nat :=
  let n := c.toNat
  if 65 ≤ n ∧ n ≤ 90 then some (n - 65)
  else if 97 ≤ n ∧ n ≤ 122 then some (n - 97 + 26)
  else if 48 ≤ n ∧ n ≤ 57 then some (n - 48 + 52)
  else if c = '-' then some 62
  else if c = '_' then some 63
  else none

/-- URL-safe base64 encoding with padding (`URL_SAFE.encode`). -/
def encodeB64 : Bytes → Str
  | b1 :: b2 :: b3 :: rest =>
      b64Char (b1 / 4) :: b64Char (b1 % 4 * 16 + b2 / 16) ::
        b64Char (b2 % 16 * 4 + b3 / 64) :: b64Char (b3 % 64) :: encodeB64 rest
  | [b1, b2] => [b64Char (b1 / 4), b64Char (b1 % 4 * 16 + b2 / 16), b64Char (b2 % 16 * 4), '=']
  | [b1] => [b64Char (b1 / 4), b64Char (b1 % 4 * 16), '=', '=']
  | [] => []

/-- URL-safe base64 decoding with canonical padding (`URL_SAFE.decode`);
`none` is the `DecodeError` case. -/
def decodeB64 : Str → Option Bytes
  | [] => some []
  | [c1, c2, '=', '='] => do
      let v1 ← b64Val c1
      let v2 ← b64Val c2
      if v2 % 16 = 0 then some [v1 * 4 + v2 / 16] else none
  | [c1, c2, c3, '='] => do
      let v1 ← b64Val c1
      let v2 ← b64Val c2
      let v3 ← b64Val c3
      if v3 % 4 = 0 then some [v1 * 4 + v2 / 16, v2 % 16 * 16 + v3 / 4] else none
  | c1 :: c2 :: c3 :: c4 :: rest => do
      let v1 ← b64Val c1
      let v2 ← b64Val c2
      let v3 ← b64Val c3
      let v4 ← b64Val c4
      let tail ← decodeB64 rest
      some ((v1 * 4 + v2 / 16) :: (v2 % 16 * 16 + v3 / 4) :: (v3 % 4 * 64 + v4) :: tail)
  | _ => none

/-! ## UTF-8 (Rust `String::from_utf8` validation, and encoding for display) -/

/-- UTF-8 encoding of one scalar value. -/
def utf8EncodeChar (c : Char) : Bytes :=
  let n := c.toNat
  if n < 128 then [n]
  else if n < 2048 then [192 + n / 64, 128 + n % 64]
  else if n < 65536 then [224 + n / 4096, 128 + n / 64 % 64, 128 + n % 64]
  else [240 + n / 262144, 128 + n / 4096 % 64, 128 + n / 64 % 64, 128 + n % 64]

/-- UTF-8 encoding of a string. -/
def utf8Encode (s : Str) : Bytes := s.flatMap utf8EncodeChar

/-- Continuation byte test (0x80..=0xBF). -/
def utf8Cont (b : Nat) : Bool := 128 ≤ b && b < 192

/-- Strict UTF-8 decoding, mirroring Rust's `String::from_utf8` validity rules
(rejecting overlong forms, surrogates and values above U+10FFFF); `none` is the
`FromUtf8Error` case. -/
def utf8Dec : Bytes → Option Str
  | [] => some []
  | b :: rest =>
    if b < 128 then (utf8Dec rest).map (Char.ofNat b :: ·)
    else if 194 ≤ b && b ≤ 223 then
      match rest with
      | b2 :: rest2 =>
        if utf8Cont b2 then (utf8Dec rest2).map (Char.ofNat ((b - 192) * 64 + (b2 - 128)) :: ·)
        else none
      | [] => none
    else if 224 ≤ b && b ≤ 239 then
      match rest with
      | b2 :: b3 :: rest3 =>
        let lo2 : Nat := if b = 224 then 160 else 128
        let hi2 : Nat := if b = 237 then 159 else 191
        if (lo2 ≤ b2 && b2 ≤ hi2) && utf8Cont b3 then
          (utf8Dec rest3).map
            (Char.ofNat ((b - 224) * 4096 + (b2 - 128) * 64 + (b3 - 128)) :: ·)
        else none
      | _ => none
    else if 240 ≤ b && b ≤ 244 then
      match rest with
      | b2 :: b3 :: b4 :: rest4 =>
        let lo2 : Nat := if b = 240 then 144 else 128
        let hi2 : Nat := if b = 244 then 143 else 191
        if (lo2 ≤ b2 && b2 ≤ hi2) && (utf8Cont b3 && utf8Cont b4) then
          (utf8Dec rest4).map
            (Char.ofNat ((b - 240) * 262144 + (b2 - 128) * 4096 + (b3 - 128) * 64 + (b4 - 128)) :: ·)
        else none
      | _ => none
    else none

/-! ## Hex rendering (blake3 `Hash` `Display`, used to name blob files) -/

/-- Lowercase hex character of a value below 16. -/
def hexChar (n : Nat) : Char :=
  if n < 10 then Char.ofNat (48 + n) else Char.ofNat (97 + (n - 10))

/-- Lowercase hex rendering of a byte string. -/
def hexStr (bs : Bytes) : Str := bs.flatMap (fun b => [hexChar (b / 16), hexChar (b % 16)])

/-! ## Decimal numerals (`u64` `Display` and `u64::from_str`) -/

/-- Decimal digit character for a value below 10. -/
def digitCh (d : Nat) : Char :=
  match d with
  | 0 => '0' | 1 => '1' | 2 => '2' | 3 => '3' | 4 => '4'
  | 5 => '5' | 6 => '6' | 7 => '7' | 8 => '8' | 9 => '9'
  | _ => '*'

/-- Test for an ASCII decimal digit. -/
def isDigitCh (c : Char) : Bool := 48 ≤ c.toNat && c.toNat ≤ 57

/-- Value of an ASCII decimal digit. -/
def chVal (c : Char) : Nat := c.toNat - 48

/-- Decimal rendering of a natural number (`u64` `Display`). -/
def natToStr (n : Nat) : Str :=
  if n = 0 then ['0'] else (Nat.digits 10 n).reverse.map digitCh

/-- Digits-only part of `u64::from_str`: nonempty, all ASCII digits, and the
value must fit in 64 bits (overflow is a `ParseIntError`). -/
def parseDigits (ds : Str) : Option Nat :=
  if ds = [] then none
  else if ds.all isDigitCh then
    let v := ds.foldl (fun a c => a * 10 + chVal c) 0
    if v < 2 ^ 64 then some v else none
  else none

/-- Model of `u64::from_str`: optional leading `+`, then decimal digits. -/
def parseNat (s : Str) : Option Nat :=
  match s with
  | [] => none
  | c :: rest => if c = '+' then parseDigits rest else parseDigits (c :: rest)

/-! ## Splitting (`str::split_once` / `str::rsplit_once`) -/

/-- Split at the first occurrence of `c` (`str::split_once`). -/
def splitOnceChar (c : Char) : Str → Option (Str × Str)
  | [] => none
  | x :: xs =>
    if x = c then some ([], xs)
    else (splitOnceChar c xs).map (fun pr => (x :: pr.1, pr.2))

/-- Split at the last occurrence of `c` (`str::rsplit_once`, with the two
pieces in source order). -/
def rsplitOnceChar (c : Char) (s : Str) : Option (Str × Str) :=
  (splitOnceChar c s.reverse).map (fun pr => (pr.2.reverse, pr.1.reverse))

/-! ## Platform path semantics (`std::path`)

`Path::is_relative` depends on the compile target: on Unix a path is absolute
iff it starts with `/`; on Windows iff it has a prefix (drive `C:` or UNC
`\\server\share`) followed by a root separator.  The model covers the drive
and UNC shapes of the Windows prefix grammar (verbatim prefixes are omitted;
no claim exercises them). -/

/-- Compile target of `std::path`. -/
inductive Platform
  | unix
  | windows
deriving DecidableEq

/-- Windows absolute-path test (drive-rooted like `C:\` or `C:/`, or UNC). -/
def windowsIsAbs : Str → Bool
  | '\\' :: '\\' :: _ => true
  | a :: ':' :: c :: _ => a.isAlpha && (c = '\\' || c = '/')
  | _ => false

/-- Model of `Path::is_relative` for both targets. -/
def isRelative : Platform → Str → Bool
  | .unix, '/' :: _ => false
  | .unix, _ => true
  | .windows, s => !(windowsIsAbs s)

/-! ## `src/path.rs`: `RepoPath` and its text form -/

/-- Errors of `src/path.rs` (`path::Error`). -/
inductive PathError
  | PathIsntRelative (p : Str)
  | ParseIntError (s : Str)
  | DecodeError
  | InvalidUtf8
  | InvalidPathSyntax
deriving DecidableEq

/-- `RepoPath` of `src/path.rs` (fields in source order). -/
structure RepoPath where
  step : Nat
  relative_path : Str
  branch : Str
deriving DecidableEq

/-- `RepoPath::new`: rejects a non-relative `relative_path`. -/
def RepoPath.new (plat : Platform) (branch : Str) (step : Nat) (relative_path : Str) :
    Except PathError RepoPath :=
  if isRelative plat relative_path then .ok ⟨step, relative_path, branch⟩
  else .error (.PathIsntRelative relative_path)

/-- The `Display` impl: `"{branch}:{relative_path}@{step}"`. -/
def RepoPath.toStr (rp : RepoPath) : Str :=
  rp.branch ++ [':'] ++ rp.relative_path ++ ['@'] ++ natToStr rp.step

/-- The `FromStr` impl: split on the first `:`, then the last `@`, parse the
step as `u64`, and construct through `RepoPath::new`. -/
def RepoPath.fromStr (plat : Platform) (s : Str) : Except PathError RepoPath :=
  match splitOnceChar ':' s with
  | none => .error .InvalidPathSyntax
  | some (branch, rest) =>
    match rsplitOnceChar '@' rest with
    | none => .error .InvalidPathSyntax
    | some (path, stepStr) =>
      match parseNat stepStr with
      | none => .error (.ParseIntError stepStr)
      | some step => RepoPath.new plat branch step path

/-! ## `src/lib.rs`: the `Repository` collaborator -/

/-- The `Repository` handle (storage root, working directory, branch). -/
structure Repository where
  path : Str
  work_dir : Str
  branch : Str
deriving DecidableEq

/-- Split a string at every occurrence of `c`. -/
def splitAllChar (c : Char) : Str → List Str
  | [] => [[]]
  | x :: xs =>
    let r := splitAllChar c xs
    if x = c then [] :: r
    else
      match r with
      | h :: t => (x :: h) :: t
      | [] => [[x]]

/-- Model of `Path::components` for Unix-style paths: a leading root
component `"/"` when the path is absolute, then the nonempty pieces between
separators (`.` normalization is not modelled; no claim exercises it). -/
def comps (s : Str) : List Str :=
  (if isRelative .unix s then [] else [['/']]) ++
    (splitAllChar '/' s).filter (fun piece => !piece.isEmpty)

/-- Reassemble a component list into path text. -/
def joinComps : List Str → Str
  | [] => []
  | c :: rest =>
    if c = ['/'] then '/' :: List.intercalate ['/'] rest
    else List.intercalate ['/'] (c :: rest)

/-- Model of `Path::strip_prefix(base).ok().map(to_path_buf)`: component-wise
prefix removal. -/
def stripPrefixComps (base p : Str) : Option Str :=
  if (comps base).isPrefixOf (comps p) then
    some (joinComps ((comps p).drop (comps base).length))
  else none

/-- `Repository::relative_path`: a relative input is returned unchanged,
otherwise the working-directory prefix is stripped. -/
def Repository.relative_path (repo : Repository) (p : Str) : Option Str :=
  if isRelative .unix p then some p
  else stripPrefixComps repo.work_dir p

/-- Spec-side predicate (from the sentence of claim C8): a path is outside
the working directory iff it is absolute and the working directory's
components are not a prefix of its components. -/
def outsideWorkingDir (repo : Repository) (p : Str) : Bool :=
  !(isRelative .unix p) && !((comps repo.work_dir).isPrefixOf (comps p))

/-! ## `src/store/mod.rs` and `src/store/file_store.rs`: the object store

The store's on-disk footprint is modelled as an explicit record: the result
of `read_dir` on the tracking directory `store/paths/<branch>`, the metadata
files inside it (keyed by their base64 file name), the blob files in
`store/objects` (keyed by their hex file name), whether the objects
directory exists, and the tracked files of the working directory (keyed by
working-directory-relative path, the process running with the working
directory as its current directory). -/

/-- The I/O error kinds the claims distinguish. -/
inductive IOErr
  | notFound
  | permissionDenied
deriving DecidableEq

/-- `ObjectPath` of `src/path.rs`: a 32-byte blake3 digest. -/
structure ObjectPath where
  hash : Bytes
deriving DecidableEq

/-- The all-zero sentinel hash (`Hash::from_bytes([0; blake3::OUT_LEN])`). -/
def zeroObj : ObjectPath := ⟨List.replicate 32 0⟩

/-- `FileMeta`: the ordered revision history of one tracked file. -/
structure FileMeta where
  steps : List ObjectPath
deriving DecidableEq

/-- Chunking loop of `parse_metadata`.  The `fuel` argument only bounds the
number of chunks (each loop iteration consumes 32 bytes, so `bs.length` is
more than enough); it makes the recursion structural. -/
def parseMetaAux : Nat → Bytes → List ObjectPath
  | 0, _ => []
  | fuel + 1, bs =>
    if 32 ≤ bs.length then ⟨bs.take 32⟩ :: parseMetaAux fuel (bs.drop 32) else []

/-- `parse_metadata`: read the byte stream in 32-byte chunks, dropping a
trailing partial chunk. -/
def parse_metadata (bs : Bytes) : FileMeta := ⟨parseMetaAux bs.length bs⟩

/-- `write_metadata`: concatenation of each step's raw hash bytes. -/
def write_metadata (m : FileMeta) : Bytes := (m.steps.map ObjectPath.hash).flatten

/-- The store-side `RepoPath` view.  `src/path.rs`'s `RepoPath` also carries a
branch, but no store operation reads it (`FileStore` keys metadata by
`repo.branch()`), and `changes.rs` builds these values passing `None` for the
branch — a slot no `String` inhabits — so the store model carries only the
two consumed fields. -/
structure RepoPathS where
  step : Nat
  relative_path : Str
deriving DecidableEq

/-- Errors of `src/store/file_store.rs` (`file_store::Error`). -/
inductive StoreError
  | FailedToReadFileMetadata (e : IOErr) (p : Str)
  | FailedToWriteFileMetadata (e : IOErr) (p : Str)
  | PathDoesntExist (rp : RepoPathS)
  | FailedToReadObject (e : IOErr) (o : ObjectPath)
  | FailedToWriteToObject (e : IOErr) (o : ObjectPath)
  | FailedToCreateStoreDir (e : IOErr)
  | FailedToReadFile (e : IOErr) (p : Str)
  | FailedToReadStoreDir (e : IOErr) (p : Str)
  | FailedToCopyFile (e : IOErr) (src dst : Str)
  | PathIsntInRepository (p : Str)
deriving DecidableEq

/-- One entry of `read_dir` on the tracking directory. -/
structure DirEntry where
  name : Str
  isFile : Bool
deriving DecidableEq

/-- The file-system state a `FileStore` touches. -/
structure FileStoreFS where
  trackingDir : Except IOErr (List DirEntry)
  metaFiles : List (Str × Bytes)
  objects : List (Str × Bytes)
  objectsDir : Bool
  workFiles : List (Str × Bytes)
deriving DecidableEq

/-- Association-list lookup (first match), modelling a file read by name. -/
def findA (m : List (Str × Bytes)) (k : Str) : Option Bytes :=
  match m with
  | [] => none
  | kv :: rest => if kv.1 = k then some kv.2 else findA rest k

/-- Association-list overwrite (replace the first match or append),
modelling a file write by name. -/
def insertA (k : Str) (v : Bytes) : List (Str × Bytes) → List (Str × Bytes)
  | [] => [(k, v)]
  | kv :: rest => if kv.1 = k then (k, v) :: rest else kv :: insertA k v rest

/-- `FileStore::store_path().join("paths").join(branch)` as text. -/
def pathsDir (repo : Repository) : Str :=
  repo.path ++ "/store/paths/".toList ++ repo.branch

/-- The metadata file name for a tracked path
(`URL_SAFE.encode(path.display())`). -/
def encKey (p : Str) : Str := encodeB64 (utf8Encode p)

/-- Result of an operation that can also panic (`unwrap` on user data). -/
inductive Outcome (α : Type)
  | ok (a : α)
  | err (e : StoreError)
  | panicked
deriving DecidableEq

/-- The `map(decode(..).unwrap())` stage of `tracked_files`: decode every
name or panic. -/
def decodeNames : List Str → Option (List Bytes)
  | [] => some []
  | n :: ns => do
    let b ← decodeB64 n
    let rest ← decodeNames ns
    some (b :: rest)

/-- `FileStore::tracked_files`: `read_dir` the tracking directory (any error
becomes `FailedToReadStoreDir`), keep file entries, base64-decode each file
name with `.unwrap()` (panicking on malformed base64), then keep only names
whose bytes are valid UTF-8 (`filter_map(Result::ok)`). -/
def tracked_files (repo : Repository) (fs : FileStoreFS) : Outcome (List Str) :=
  match fs.trackingDir with
  | .error e => .err (.FailedToReadStoreDir e (pathsDir repo))
  | .ok entries =>
    match decodeNames ((entries.filter (fun en => en.isFile)).map DirEntry.name) with
    | none => .panicked
    | some decoded => .ok (decoded.filterMap utf8Dec)

/-- `FileStore::get_metadata`: read and parse the metadata file. -/
def get_metadata (fs : FileStoreFS) (p : Str) : Except StoreError FileMeta :=
  match findA fs.metaFiles (encKey p) with
  | none => .error (.FailedToReadFileMetadata .notFound p)
  | some bs => .ok (parse_metadata bs)

/-- A write operation the store performs, for counting writes. -/
inductive FsEvent
  | mkObjectsDir
  | blobWrite (name : Str) (content : Bytes)
  | metaWrite (name : Str) (content : Bytes)
deriving DecidableEq

/-- The blob writes of a trace. -/
def blobWrites (tr : List FsEvent) : List (Str × Bytes) :=
  tr.filterMap fun ev =>
    match ev with
    | .blobWrite n c => some (n, c)
    | _ => none

/-- `Store::add_step_to_metadata` (trait default): read the metadata, append
the step, rewrite the whole file. -/
def add_step_to_metadata (fs : FileStoreFS) (p : Str) (obj : ObjectPath) :
    Except StoreError (FileStoreFS × FsEvent) :=
  match get_metadata fs p with
  | .error e => .error e
  | .ok m =>
    let bytes := write_metadata ⟨m.steps ++ [obj]⟩
    .ok ({ fs with metaFiles := insertA (encKey p) bytes fs.metaFiles },
      .metaWrite (encKey p) bytes)

/-- `Store::mark_file_removed` (trait default): append the all-zero sentinel
to the metadata, touching neither blobs nor the working directory. -/
def mark_file_removed (fs : FileStoreFS) (p : Str) : Except StoreError FileStoreFS :=
  match get_metadata fs p with
  | .error e => .error e
  | .ok m =>
    .ok { fs with
      metaFiles := insertA (encKey p) (write_metadata ⟨m.steps ++ [zeroObj]⟩) fs.metaFiles }

/-- `FileStore::generate_step`, parameterized by the blake3 digest `h3`:
relativize the path, hash the file's content, create the objects directory if
missing, unconditionally `fs::copy` the file to `objects/<hex>`, then append
the step to the metadata.  Besides the result and the new state it returns
the trace of write operations performed. -/
def generate_step (h3 : Bytes → Bytes) (repo : Repository) (fs : FileStoreFS) (path : Str) :
    Except StoreError ObjectPath × FileStoreFS × List FsEvent :=
  match Repository.relative_path repo path with
  | none => (.error (.PathIsntInRepository path), fs, [])
  | some p =>
    match findA fs.workFiles p with
    | none => (.error (.FailedToReadFile .notFound p), fs, [])
    | some content =>
      let hash := h3 content
      let st1 :=
        if fs.objectsDir then (fs, ([] : List FsEvent))
        else ({ fs with objectsDir := true }, [FsEvent.mkObjectsDir])
      let name := hexStr hash
      let fs2 : FileStoreFS := { st1.1 with objects := insertA name content st1.1.objects }
      let ev2 := st1.2 ++ [FsEvent.blobWrite name content]
      match add_step_to_metadata fs2 p ⟨hash⟩ with
      | .error e => (.error e, fs2, ev2)
      | .ok st3 => (.ok ⟨hash⟩, st3.1, ev2 ++ [st3.2])

/-- `FileStore::read`: resolve the step index into the metadata
(`PathDoesntExist` when out of range), then read the blob it names
(`FailedToReadObject` when the blob file is missing). -/
def store_read (fs : FileStoreFS) (rp : RepoPathS) : Except StoreError Bytes :=
  match get_metadata fs rp.relative_path with
  | .error e => .error e
  | .ok m =>
    match m.steps.get? rp.step with
    | none => .error (.PathDoesntExist rp)
    | some obj =>
      match findA fs.objects (hexStr obj.hash) with
      | some bs => .ok bs
      | none => .error (.FailedToReadObject .notFound obj)

/-! ## `src/changes.rs`: RepoState and the diff engine -/

/-- `RepoStateFromStoreError`. -/
inductive RepoStateFromStoreError
  | StoreError (e : StoreError)
  | FileDoesntExist (p : Str)
deriving DecidableEq

/-- The `map(get_metadata)` stage of `from_latest`, collected as a `Result`. -/
def metasFor (fs : FileStoreFS) : List Str → Except StoreError (List (FileMeta × Str))
  | [] => .ok []
  | p :: ps =>
    match get_metadata fs p with
    | .error e => .error e
    | .ok m =>
      match metasFor fs ps with
      | .error e => .error e
      | .ok rest => .ok ((m, p) :: rest)

/-- `RepoStateFromStore::from_latest`: list the tracked files, read each
file's metadata, drop files with no recorded step, and name each remaining
file at step `meta.steps.len()` (the source passes `None` for the branch). -/
def from_latest (repo : Repository) (fs : FileStoreFS) : Outcome (List RepoPathS) :=
  match tracked_files repo fs with
  | .panicked => .panicked
  | .err e => .err e
  | .ok paths =>
    match metasFor fs paths with
    | .error e => .err e
    | .ok pairs =>
      .ok ((pairs.filter (fun pr => 0 < pr.1.steps.length)).map
        (fun pr => ⟨pr.1.steps.length, pr.2⟩))

/-- `files()` of `RepoStateFromStore`: the relative paths of the objects. -/
def rsStoreFiles (objects : List RepoPathS) : List Str :=
  objects.map RepoPathS.relative_path

/-- `read()` of `RepoStateFromStore`: find the object for the path and read
it through the store. -/
def rsStoreRead (fs : FileStoreFS) (objects : List RepoPathS) (p : Str) :
    Except RepoStateFromStoreError Bytes :=
  match objects.find? (fun rp => rp.relative_path = p) with
  | none => .error (.FileDoesntExist p)
  | some rp => (store_read fs rp).mapError RepoStateFromStoreError.StoreError

/-- A `RepoState` capability: `files()` plus `read(path)` (`hash(path)` is
derived from `read`). -/
structure MState (E : Type) where
  filesR : Except E (List Str)
  readR : Str → Except E Bytes

/-- The derived `RepoState::hash` (blake3 of the bytes `read` returns), on
the success path: `some` of the content hash when `read` succeeds, `none`
when it fails.  The error sides of the two states have different types, so
the comparison claims are stated over this common success view. -/
def hashOk {E : Type} (h3 : Bytes → Bytes) (st : MState E) (p : Str) : Option Bytes :=
  ((st.readR p).map h3).toOption

/-- `CompareError`: which side of the comparison failed. -/
inductive CompareError (E1 E2 : Type)
  | State1Error (e : E1)
  | State2Error (e : E2)
deriving DecidableEq

/-- A changed file's rendered diff; `compare_states` always builds the
byte-slice variant (`file_diff` ignores its path argument), modelled here by
the two byte buffers handed to the diff renderer. -/
inductive FileDiffM
  | byBytes (bytesOld bytesNew : Bytes)
deriving DecidableEq

/-- The `Diff` report. -/
structure Diff where
  new_files : List (Str × Bytes)
  changed_files : List (Str × FileDiffM)
  deleted_files : List Str
deriving DecidableEq

/-- The new-files stage: read every path from the new state, failing with
`State2Error` on the first read error. -/
def newFilesOf {E1 E2 : Type} (s2 : MState E2) :
    List Str → Except (CompareError E1 E2) (List (Str × Bytes))
  | [] => .ok []
  | p :: ps =>
    match s2.readR p with
    | .error e => .error (.State2Error e)
    | .ok b =>
      match newFilesOf s2 ps with
      | .error e => .error e
      | .ok rest => .ok ((p, b) :: rest)

/-- The changed-paths stage: hash each path in both states (old side first),
keeping the paths whose hashes differ. -/
def changedPathsOf {E1 E2 : Type} (h3 : Bytes → Bytes) (s1 : MState E1) (s2 : MState E2) :
    List Str → Except (CompareError E1 E2) (List Str)
  | [] => .ok []
  | p :: ps =>
    match s1.readR p with
    | .error e => .error (.State1Error e)
    | .ok b1 =>
      match s2.readR p with
      | .error e => .error (.State2Error e)
      | .ok b2 =>
        match changedPathsOf h3 s1 s2 ps with
        | .error e => .error e
        | .ok rest => .ok (if h3 b1 = h3 b2 then rest else p :: rest)

/-- The changed-files stage: read each changed path from both states and
render a diff. -/
def changedPairsOf {E1 E2 : Type} (s1 : MState E1) (s2 : MState E2) :
    List Str → Except (CompareError E1 E2) (List (Str × FileDiffM))
  | [] => .ok []
  | p :: ps =>
    match s1.readR p with
    | .error e => .error (.State1Error e)
    | .ok b1 =>
      match s2.readR p with
      | .error e => .error (.State2Error e)
      | .ok b2 =>
        match changedPairsOf s1 s2 ps with
        | .error e => .error e
        | .ok rest => .ok ((p, .byBytes b1 b2) :: rest)

/-- `compare_states`, parameterized by the blake3 digest `h3`: new files are
the new state's paths absent from the old (content read from the new state),
changed files are the paths in both whose hashes differ (content read from
both), deleted files are the old state's paths absent from the new (path
only). -/
def compare_states {E1 E2 : Type} (h3 : Bytes → Bytes) (s1 : MState E1) (s2 : MState E2) :
    Except (CompareError E1 E2) Diff :=
  match s1.filesR with
  | .error e => .error (.State1Error e)
  | .ok files1 =>
    match s2.filesR with
    | .error e => .error (.State2Error e)
    | .ok files2 =>
      match newFilesOf s2 (files2.filter (fun f => !decide (f ∈ files1))) with
      | .error e => .error e
      | .ok new_files =>
        match changedPathsOf h3 s1 s2 (files2.filter (fun f => decide (f ∈ files1))) with
        | .error e => .error e
        | .ok changedPaths =>
          match changedPairsOf s1 s2 changedPaths with
          | .error e => .error e
          | .ok changed_files =>
            .ok ⟨new_files, changed_files,
              files1.filter (fun f => !decide (f ∈ files2))⟩

/-! ## Concrete instances used to evaluate the model -/

/-- The working-directory-relative path `a.txt`. -/
def aTxt : Str := "a.txt".toList

/-- The working-directory-relative path `b.txt`. -/
def bTxt : Str := "b.txt".toList

/-- The working-directory-relative path `c.txt`. -/
def cTxt : Str := "c.txt".toList

/-- A sample 32-byte digest value. -/
def sampleHash : Bytes := List.replicate 32 17

/-- A sample repository handle. -/
def repo0 : Repository := ⟨".dj".toList, ".".toList, "local/main".toList⟩

/-- A concrete blake3 stand-in used for evaluations: an injective digest
(content padded or truncated to 32 bytes). -/
def h3c : Bytes → Bytes := fun bs => (bs ++ List.replicate 32 0).take 32

/-- An injective hash stand-in for diff-engine evaluations (blake3 is
collision-resistant, so distinct small contents have distinct hashes). -/
def idh : Bytes → Bytes := fun b => b

/-- Store state with one tracked file `a.txt` that has exactly one recorded
step, whose blob is present. -/
def fsOneStep : FileStoreFS :=
  { trackingDir := .ok [⟨encKey aTxt, true⟩]
    metaFiles := [(encKey aTxt, sampleHash)]
    objects := [(hexStr sampleHash, [104, 105])]
    objectsDir := true
    workFiles := [] }

/-- Store state with one tracked file `a.txt` (no steps yet) whose working
copy holds the byte `1`. -/
def fsTracked : FileStoreFS :=
  { trackingDir := .ok [⟨encKey aTxt, true⟩]
    metaFiles := [(encKey aTxt, [])]
    objects := []
    objectsDir := false
    workFiles := [(aTxt, [49])] }

/-- Store state whose tracking directory is missing (`read_dir` returns a
not-found error). -/
def fsMissing : FileStoreFS :=
  { trackingDir := .error .notFound
    metaFiles := []
    objects := []
    objectsDir := false
    workFiles := [] }

/-- Store state whose tracking directory holds a file named `!`, which is not
valid base64. -/
def fsBadName : FileStoreFS :=
  { trackingDir := .ok [⟨"!".toList, true⟩]
    metaFiles := []
    objects := []
    objectsDir := false
    workFiles := [] }

/-- The old state of the spec's diff example: `{a.txt: "1", b.txt: "2"}`. -/
def oldSt : MState Unit :=
  ⟨.ok [aTxt, bTxt], fun p =>
    if p = aTxt then .ok [49] else if p = bTxt then .ok [50] else .error ()⟩

/-- The new state of the spec's diff example:
`{a.txt: "1", b.txt: "3", c.txt: "4"}`. -/
def newSt : MState Unit :=
  ⟨.ok [aTxt, bTxt, cTxt], fun p =>
    if p = aTxt then .ok [49] else if p = bTxt then .ok [51]
    else if p = cTxt then .ok [52] else .error ()⟩

/-- The repository of the `relative_path` unit test in `src/lib.rs`. -/
def repoT : Repository :=
  ⟨"/path/to/repository/.dj".toList, "/path/to/repository".toList, "local/main".toList⟩

/-! ## Helper lemmas: the metadata codec -/

theorem parseMetaAux_fuel : ∀ (f1 f2 : Nat) (bs : Bytes),
    bs.length ≤ f1 → bs.length ≤ f2 → parseMetaAux f1 bs = parseMetaAux f2 bs := by
  intro f1
  induction f1 with
  | zero =>
    intro f2 bs h1 _
    have hbs : bs = [] := List.length_eq_zero.mp (Nat.le_zero.mp h1)
    subst hbs
    cases f2 <;> simp [parseMetaAux]
  | succ f ih =>
    intro f2 bs h1 h2
    cases f2 with
    | zero =>
      have hbs : bs = [] := List.length_eq_zero.mp (Nat.le_zero.mp h2)
      subst hbs
      simp [parseMetaAux]
    | succ f2 =>
      simp only [parseMetaAux]
      by_cases h32 : 32 ≤ bs.length
      · rw [if_pos h32, if_pos h32,
          ih f2 (bs.drop 32) (by simp; omega) (by simp; omega)]
      · rw [if_neg h32, if_neg h32]

theorem parseMetaAux_eq_parse (fuel : Nat) (bs : Bytes) (h : bs.length ≤ fuel) :
    parseMetaAux fuel bs = (parse_metadata bs).steps := by
  unfold parse_metadata
  exact parseMetaAux_fuel fuel bs.length bs h le_rfl

theorem parseMetaAux_length : ∀ (fuel : Nat) (bs : Bytes), bs.length ≤ fuel →
    (parseMetaAux fuel bs).length = bs.length / 32 := by
  intro fuel
  induction fuel with
  | zero =>
    intro bs h
    have hbs : bs = [] := List.length_eq_zero.mp (Nat.le_zero.mp h)
    subst hbs
    simp [parseMetaAux]
  | succ f ih =>
    intro bs h
    simp only [parseMetaAux]
    by_cases h32 : 32 ≤ bs.length
    · rw [if_pos h32]
      simp only [List.length_cons, ih (bs.drop 32) (by simp; omega), List.length_drop]
      omega
    · rw [if_neg h32]
      simp only [List.length_nil]
      omega

theorem parseMetaAux_get : ∀ (fuel : Nat) (bs : Bytes) (i : Nat), bs.length ≤ fuel →
    32 * (i + 1) ≤ bs.length → (parseMetaAux fuel bs).get? i = some ⟨(bs.drop (32 * i)).take 32⟩ := by
  intro fuel
  induction fuel with
  | zero =>
    intro bs i h hi
    have hbs : bs = [] := List.length_eq_zero.mp (Nat.le_zero.mp h)
    subst hbs
    simp at hi
  | succ f ih =>
    intro bs i h hi
    have h32 : 32 ≤ bs.length := by omega
    simp only [parseMetaAux, if_pos h32]
    cases i with
    | zero => simp
    | succ i =>
      simp only [List.get?_cons_succ]
      rw [ih (bs.drop 32) i (by simp only [List.length_drop]; omega)
        (by simp only [List.length_drop]; omega)]
      rw [List.drop_drop, show 32 + 32 * i = 32 * (i + 1) from by ring]

theorem parseMetaAux_hash_length : ∀ (fuel : Nat) (bs : Bytes) (s : ObjectPath),
    s ∈ parseMetaAux fuel bs → s.hash.length = 32 := by
  intro fuel
  induction fuel with
  | zero => intro bs s hs; simp [parseMetaAux] at hs
  | succ f ih =>
    intro bs s hs
    by_cases h32 : 32 ≤ bs.length
    · simp only [parseMetaAux, if_pos h32, List.mem_cons] at hs
      rcases hs with hs | hs
      · subst hs
        simp only [List.length_take]
        omega
      · exact ih (bs.drop 32) s hs
    · simp [parseMetaAux, if_neg h32] at hs

theorem parse_metadata_hash_length (bs : Bytes) (s : ObjectPath)
    (hs : s ∈ (parse_metadata bs).steps) : s.hash.length = 32 :=
  parseMetaAux_hash_length bs.length bs s hs

theorem write_metadata_cons (s : ObjectPath) (rest : List ObjectPath) :
    write_metadata ⟨s :: rest⟩ = s.hash ++ write_metadata ⟨rest⟩ := by
  simp [write_metadata]

theorem metaRoundtripAux : ∀ (steps : List ObjectPath),
    (∀ s ∈ steps, s.hash.length = 32) → ∀ (fuel : Nat),
    (write_metadata ⟨steps⟩).length ≤ fuel →
    parseMetaAux fuel (write_metadata ⟨steps⟩) = steps := by
  intro steps
  induction steps with
  | nil =>
    intro _ fuel _
    have : write_metadata (⟨[]⟩ : FileMeta) = [] := by simp [write_metadata]
    rw [this]
    cases fuel <;> simp [parseMetaAux]
  | cons s rest ih =>
    intro hlen fuel hfuel
    have hs : s.hash.length = 32 := hlen s (by simp)
    rw [write_metadata_cons] at hfuel ⊢
    have hwl : (s.hash ++ write_metadata ⟨rest⟩).length =
        32 + (write_metadata ⟨rest⟩).length := by simp [hs]
    cases fuel with
    | zero => omega
    | succ f =>
      have h32 : 32 ≤ (s.hash ++ write_metadata ⟨rest⟩).length := by omega
      simp only [parseMetaAux, if_pos h32]
      have htake : (s.hash ++ write_metadata ⟨rest⟩).take 32 = s.hash := by
        rw [show (32 : Nat) = s.hash.length from hs.symm]
        exact List.take_left s.hash (write_metadata ⟨rest⟩)
      have hdrop : (s.hash ++ write_metadata ⟨rest⟩).drop 32 = write_metadata ⟨rest⟩ := by
        rw [show (32 : Nat) = s.hash.length from hs.symm]
        exact List.drop_left s.hash (write_metadata ⟨rest⟩)
      rw [htake, hdrop, ih (fun t ht => hlen t (by simp [ht])) f (by omega)]

theorem metaRoundtrip (m : FileMeta) (h : ∀ s ∈ m.steps, s.hash.length = 32) :
    parse_metadata (write_metadata m) = m := by
  obtain ⟨steps⟩ := m
  unfold parse_metadata
  rw [metaRoundtripAux steps h (write_metadata ⟨steps⟩).length le_rfl]

theorem parseMetaAux_append_small : ∀ (fuel : Nat) (bs extra : Bytes),
    bs.length + extra.length ≤ fuel → 32 ∣ bs.length → extra.length < 32 →
    parseMetaAux fuel (bs ++ extra) = parseMetaAux fuel bs := by
  intro fuel
  induction fuel with
  | zero =>
    intro bs extra h _ _
    have hbs : bs = [] := List.length_eq_zero.mp (by omega)
    have hex : extra = [] := List.length_eq_zero.mp (by omega)
    subst hbs; subst hex; rfl
  | succ f ih =>
    intro bs extra h hdvd hex
    by_cases h0 : bs.length = 0
    · have hbs : bs = [] := List.length_eq_zero.mp h0
      subst hbs
      simp only [List.nil_append, parseMetaAux]
      rw [if_neg (by omega), if_neg (by omega)]
    · have h32 : 32 ≤ bs.length := Nat.le_of_dvd (by omega) hdvd
      have h32' : 32 ≤ (bs ++ extra).length := by simp; omega
      simp only [parseMetaAux, if_pos h32, if_pos h32']
      have htake : (bs ++ extra).take 32 = bs.take 32 := by
        rw [List.take_append_eq_append_take, show 32 - bs.length = 0 from by omega]
        simp
      have hdrop : (bs ++ extra).drop 32 = bs.drop 32 ++ extra := by
        rw [List.drop_append_eq_append_drop, show 32 - bs.length = 0 from by omega]
        simp
      rw [htake, hdrop, ih (bs.drop 32) extra (by simp; omega)
        (by simp only [List.length_drop]; exact Nat.dvd_sub' hdvd (by norm_num)) hex]

/-- Claim C5: the metadata codec is total and lenient.  Decoding any byte
stream yields one entry per full 32-byte chunk (the i-th entry being the
i-th chunk), a trailing partial chunk is silently dropped without error, and
decode after encode is the identity for any sequence of 32-byte hashes. -/
theorem c5_metadata_codec :
    (∀ bs : Bytes, (parse_metadata bs).steps.length = bs.length / 32) ∧
    (∀ (bs : Bytes) (i : Nat), i < bs.length / 32 →
      (parse_metadata bs).steps.get? i = some ⟨(bs.drop (32 * i)).take 32⟩) ∧
    (∀ (bs extra : Bytes), 32 ∣ bs.length → extra.length < 32 →
      parse_metadata (bs ++ extra) = parse_metadata bs) ∧
    (∀ m : FileMeta, (∀ s ∈ m.steps, s.hash.length = 32) →
      parse_metadata (write_metadata m) = m) := by
  refine ⟨?_, ?_, ?_, fun m h => metaRoundtrip m h⟩
  · intro bs
    exact parseMetaAux_length bs.length bs le_rfl
  · intro bs i hi
    have hle : 32 * (i + 1) ≤ bs.length := by omega
    exact parseMetaAux_get bs.length bs i le_rfl hle
  · intro bs extra hdvd hex
    unfold parse_metadata
    rw [parseMetaAux_append_small (bs ++ extra).length bs extra (by simp) hdvd hex]
    exact congrArg FileMeta.mk
      (parseMetaAux_fuel (bs ++ extra).length bs.length bs (by simp) le_rfl)

/-- Witness for C5 at the regression example of the source's test suite: a
two-hash history encodes to 64 bytes, decodes back, and five trailing junk
bytes are dropped. -/
theorem c5_metadata_codec_witness :
    parse_metadata
        (write_metadata ⟨[⟨List.replicate 32 3⟩, ⟨List.replicate 32 4⟩]⟩ ++ [1, 2, 3, 4, 5]) =
      ⟨[⟨List.replicate 32 3⟩, ⟨List.replicate 32 4⟩]⟩ := by
  have h := c5_metadata_codec
  rw [h.2.2.1 _ _ (by decide) (by decide), h.2.2.2 _ (by decide)]

/-! ## Helper lemmas: decimal rendering and parsing -/

theorem digitCh_spec (d : Nat) (hd : d < 10) :
    isDigitCh (digitCh d) = true ∧ chVal (digitCh d) = d := by
  interval_cases d <;> exact ⟨by decide, by decide⟩

theorem natToStr_all_digits (n : Nat) : ∀ c ∈ natToStr n, isDigitCh c = true := by
  intro c hc
  unfold natToStr at hc
  by_cases h0 : n = 0
  · subst h0
    simp at hc
    subst hc
    decide
  · rw [if_neg h0] at hc
    obtain ⟨d, hd, hdc⟩ := List.mem_map.mp hc
    have hd10 : d < 10 := Nat.digits_lt_base (by norm_num) (List.mem_reverse.mp hd)
    rw [← hdc]
    exact (digitCh_spec d hd10).1

theorem isDigitCh_ne (c : Char) (h : isDigitCh c = true) :
    c ≠ '+' ∧ c ≠ '@' ∧ c ≠ ':' := by
  refine ⟨?_, ?_, ?_⟩ <;> rintro rfl <;> exact absurd h (by decide)

theorem natToStr_ne_nil (n : Nat) : natToStr n ≠ [] := by
  unfold natToStr
  by_cases h0 : n = 0
  · simp [h0]
  · rw [if_neg h0]
    simp only [ne_eq, List.map_eq_nil_iff, List.reverse_eq_nil_iff]
    exact Nat.digits_ne_nil_iff_ne_zero.mpr h0

theorem foldr_ofDigits (L : List Nat) :
    L.foldr (fun d acc => acc * 10 + d) 0 = Nat.ofDigits 10 L := by
  induction L with
  | nil => simp [Nat.ofDigits]
  | cons d L ih =>
    simp only [List.foldr_cons, ih, Nat.ofDigits_cons]
    ring

theorem parseDigits_natToStr (n : Nat) (hn : n < 2 ^ 64) :
    parseDigits (natToStr n) = some n := by
  by_cases h0 : n = 0
  · subst h0
    decide
  · unfold parseDigits
    rw [if_neg (natToStr_ne_nil n)]
    rw [if_pos (List.all_eq_true.mpr (fun c hc => natToStr_all_digits n c hc))]
    have hfold : (natToStr n).foldl (fun a c => a * 10 + chVal c) 0 = n := by
      unfold natToStr
      rw [if_neg h0, List.foldl_map]
      have hext : ((Nat.digits 10 n).reverse.foldl (fun a d => a * 10 + chVal (digitCh d)) 0) =
          ((Nat.digits 10 n).reverse.foldl (fun a d => a * 10 + d) 0) := by
        apply List.foldl_ext
        intro a d hd
        rw [(digitCh_spec d (Nat.digits_lt_base (by norm_num) (List.mem_reverse.mp hd))).2]
      rw [hext, List.foldl_reverse, foldr_ofDigits, Nat.ofDigits_digits]
    rw [hfold, if_pos hn]

theorem parseNat_natToStr (n : Nat) (hn : n < 2 ^ 64) :
    parseNat (natToStr n) = some n := by
  rcases hne : natToStr n with _ | ⟨c, rest⟩
  · exact absurd hne (natToStr_ne_nil n)
  · have hc : isDigitCh c = true := natToStr_all_digits n c (by rw [hne]; simp)
    simp only [parseNat, if_neg (isDigitCh_ne c hc).1]
    rw [← hne]
    exact parseDigits_natToStr n hn

/-! ## Helper lemmas: splitting -/

theorem splitOnceChar_append (c : Char) :
    ∀ (l r : Str), c ∉ l → splitOnceChar c (l ++ c :: r) = some (l, r) := by
  intro l
  induction l with
  | nil => intro r _; simp [splitOnceChar]
  | cons x xs ih =>
    intro r hc
    simp only [List.mem_cons, not_or] at hc
    obtain ⟨hc1, hc2⟩ := hc
    have hxc : ¬ x = c := fun h => hc1 h.symm
    show (if x = c then some ([], xs ++ c :: r)
      else (splitOnceChar c (xs ++ c :: r)).map (fun pr => (x :: pr.1, pr.2))) = some (x :: xs, r)
    rw [if_neg hxc, ih r hc2]
    rfl

theorem rsplitOnceChar_append (c : Char) (a b : Str) (hb : c ∉ b) :
    rsplitOnceChar c (a ++ c :: b) = some (a, b) := by
  unfold rsplitOnceChar
  rw [show (a ++ c :: b).reverse = b.reverse ++ c :: a.reverse from by simp]
  rw [splitOnceChar_append c _ _ (by simpa using hb)]
  simp

/-- Claim C3 (amended): parsing the canonical text of a valid `RepoPath`
yields it back, provided its branch contains no `:` (the separator the
parser splits on first); the relative path may contain any characters,
including `@` and `:`, and the step may be any `u64`. -/
theorem c3_roundtrip_amended (plat : Platform) (x : RepoPath)
    (hb : ':' ∉ x.branch) (hrel : isRelative plat x.relative_path = true)
    (hstep : x.step < 2 ^ 64) :
    RepoPath.fromStr plat (RepoPath.toStr x) = .ok x := by
  have hstr : RepoPath.toStr x =
      x.branch ++ ':' :: (x.relative_path ++ '@' :: natToStr x.step) := by
    simp [RepoPath.toStr]
  have hdig : '@' ∉ natToStr x.step := by
    intro h
    exact absurd (natToStr_all_digits x.step '@' h) (by decide)
  simp only [RepoPath.fromStr, hstr, splitOnceChar_append ':' x.branch _ hb,
    rsplitOnceChar_append '@' x.relative_path (natToStr x.step) hdig,
    parseNat_natToStr x.step hstep, RepoPath.new, if_pos hrel]

/-- Witness for C3 at the spec's own example
`local/main:src/main.rs@18`. -/
theorem c3_roundtrip_amended_witness :
    RepoPath.fromStr .unix (RepoPath.toStr ⟨18, "src/main.rs".toList, "local/main".toList⟩) =
      .ok ⟨18, "src/main.rs".toList, "local/main".toList⟩ :=
  c3_roundtrip_amended .unix ⟨18, "src/main.rs".toList, "local/main".toList⟩
    (by decide) (by decide) (by decide)

/-- Counterexample to C3 as stated: the branch `a:b` (a legal branch string,
accepted by `RepoPath::new`) does not survive the round trip — parsing the
rendered text re-splits at the first `:`, yielding branch `a` and path
`b:p`. -/
theorem c3_roundtrip_counterexample :
    RepoPath.new .unix "a:b".toList 0 "p".toList = .ok ⟨0, "p".toList, "a:b".toList⟩ ∧
    RepoPath.fromStr .unix (RepoPath.toStr ⟨0, "p".toList, "a:b".toList⟩) =
      .ok ⟨0, "b:p".toList, "a".toList⟩ ∧
    RepoPath.fromStr .unix (RepoPath.toStr ⟨0, "p".toList, "a:b".toList⟩) ≠
      .ok ⟨0, "p".toList, "a:b".toList⟩ := by
  refine ⟨by decide, by decide, by decide⟩

/-- Claim C9: constructing a `RepoPath` with an absolute path fails with the
path-not-relative error carrying the offending path — a Unix-style absolute
path on the Unix target and a Windows-style absolute path on the Windows
target — regardless of branch and step, while construction with any relative
path succeeds. -/
theorem c9_reject_absolute :
    (∀ (branch : Str) (step : Nat) (rest : Str),
      RepoPath.new .unix branch step ('/' :: rest) =
        .error (.PathIsntRelative ('/' :: rest))) ∧
    (∀ (branch : Str) (step : Nat) (p : Str), windowsIsAbs p = true →
      RepoPath.new .windows branch step p = .error (.PathIsntRelative p)) ∧
    (∀ (plat : Platform) (branch : Str) (step : Nat) (p : Str),
      isRelative plat p = true → RepoPath.new plat branch step p = .ok ⟨step, p, branch⟩) := by
  refine ⟨?_, ?_, ?_⟩
  · intro branch step rest
    simp [RepoPath.new, isRelative]
  · intro branch step p hp
    simp [RepoPath.new, isRelative, hp]
  · intro plat branch step p hp
    simp [RepoPath.new, hp]

/-- Witness for C9 at the paths of the source's own unit test. -/
theorem c9_reject_absolute_witness :
    RepoPath.new .unix "local/main".toList 2 ('/' :: "home/user/folder/file.txt".toList) =
      .error (.PathIsntRelative ('/' :: "home/user/folder/file.txt".toList)) ∧
    RepoPath.new .windows "local/main".toList 2 "C:\\Users\\user\\folder\\file.txt".toList =
      .error (.PathIsntRelative "C:\\Users\\user\\folder\\file.txt".toList) ∧
    RepoPath.new .unix "local/main".toList 18 "src/main.rs".toList =
      .ok ⟨18, "src/main.rs".toList, "local/main".toList⟩ :=
  ⟨c9_reject_absolute.1 "local/main".toList 2 "home/user/folder/file.txt".toList,
    c9_reject_absolute.2.1 "local/main".toList 2 "C:\\Users\\user\\folder\\file.txt".toList
      (by decide),
    c9_reject_absolute.2.2 .unix "local/main".toList 18 "src/main.rs".toList (by decide)⟩

/-- Claim C8: `Repository::relative_path` returns `none` exactly for inputs
outside the working directory (absolute paths the working directory's
components do not prefix); every other input — in particular every relative
input, which is returned unchanged — yields `some` of the
working-directory-relative remainder. -/
theorem c8_relative_path (repo : Repository) (p : Str) :
    (Repository.relative_path repo p = none ↔ outsideWorkingDir repo p = true) ∧
    (isRelative .unix p = true → Repository.relative_path repo p = some p) ∧
    (∀ r, Repository.relative_path repo p = some r →
      (isRelative .unix p = true ∧ r = p) ∨
      ((comps repo.work_dir).isPrefixOf (comps p) = true ∧
        r = joinComps ((comps p).drop (comps repo.work_dir).length))) := by
  unfold Repository.relative_path outsideWorkingDir stripPrefixComps
  by_cases hrel : isRelative .unix p <;>
    by_cases hpre : (comps repo.work_dir).isPrefixOf (comps p) <;>
      simp [hrel, hpre]

/-- Witness for C8 at the inputs of the source's `relative_path_test`. -/
theorem c8_relative_path_witness :
    (Repository.relative_path repoT "/other/foo.txt".toList = none ↔
      outsideWorkingDir repoT "/other/foo.txt".toList = true) ∧
    Repository.relative_path repoT "bar/foo.txt".toList = some "bar/foo.txt".toList ∧
    Repository.relative_path repoT "/path/to/repository/bar/foo.txt".toList =
      some "bar/foo.txt".toList :=
  ⟨(c8_relative_path repoT "/other/foo.txt".toList).1,
    (c8_relative_path repoT "bar/foo.txt".toList).2.1 (by decide),
    by decide⟩

/-! ## Helper lemmas: association lists and name decoding -/

theorem findA_insertA_self (k : Str) (v : Bytes) :
    ∀ m : List (Str × Bytes), findA (insertA k v m) k = some v := by
  intro m
  induction m with
  | nil => simp [insertA, findA]
  | cons kv rest ih =>
    by_cases hk : kv.1 = k
    · simp [insertA, hk, findA]
    · simp only [insertA, if_neg hk, findA, ih]

theorem insertA_insertA_self (k : Str) (v : Bytes) :
    ∀ m : List (Str × Bytes), insertA k v (insertA k v m) = insertA k v m := by
  intro m
  induction m with
  | nil => simp [insertA]
  | cons kv rest ih =>
    by_cases hk : kv.1 = k
    · simp [insertA, hk]
    · simp only [insertA, if_neg hk, ih]

theorem decodeNames_none : ∀ ns : List Str, (∃ n ∈ ns, decodeB64 n = none) →
    decodeNames ns = none := by
  intro ns
  induction ns with
  | nil => rintro ⟨n, hn, _⟩; simp at hn
  | cons m ms ih =>
    rintro ⟨n, hn, hd⟩
    simp only [List.mem_cons] at hn
    rcases hn with rfl | hn
    · simp [decodeNames, hd]
    · cases hdm : decodeB64 m with
      | none => simp [decodeNames, hdm]
      | some b => simp [decodeNames, hdm, ih ⟨n, hn, hd⟩]

theorem decodeNames_all_some : ∀ ns : List Str, (∀ n ∈ ns, (decodeB64 n).isSome = true) →
    ∃ ds, decodeNames ns = some ds := by
  intro ns
  induction ns with
  | nil => intro _; exact ⟨[], rfl⟩
  | cons m ms ih =>
    intro h
    obtain ⟨b, hb⟩ := Option.isSome_iff_exists.mp (h m (by simp))
    obtain ⟨ds, hds⟩ := ih (fun n hn => h n (by simp [hn]))
    exact ⟨b :: ds, by simp [decodeNames, hb, hds]⟩

/-- Counterexample to C2 as stated: when the tracking directory is missing
(`read_dir` fails with a not-found error), `tracked_files` fails with
`FailedToReadStoreDir` instead of returning an empty list. -/
theorem c2_missing_dir_counterexample :
    tracked_files repo0 fsMissing =
      .err (.FailedToReadStoreDir .notFound (pathsDir repo0)) ∧
    tracked_files repo0 fsMissing ≠ .ok [] := by
  exact ⟨by decide, by decide⟩

/-- Claim C2 (amended): `tracked_files` fails with the store-directory read
error exactly when reading the tracking directory fails — whether the
directory is unreadable or missing.  A missing tracking directory (nothing
recorded yet) is an error, not an empty list; when the directory reads
successfully the operation never yields that error (it returns a list, or
panics on a malformed entry name). -/
theorem c2_tracked_files_amended (repo : Repository) (fs : FileStoreFS) :
    (∀ e, fs.trackingDir = .error e →
      tracked_files repo fs = .err (.FailedToReadStoreDir e (pathsDir repo))) ∧
    (∀ entries, fs.trackingDir = .ok entries →
      tracked_files repo fs = .panicked ∨ ∃ names, tracked_files repo fs = .ok names) := by
  constructor
  · intro e he
    simp [tracked_files, he]
  · intro entries he
    simp only [tracked_files, he]
    cases decodeNames ((entries.filter (fun en => en.isFile)).map DirEntry.name) with
    | none => exact .inl rfl
    | some ds => exact .inr ⟨ds.filterMap utf8Dec, rfl⟩

/-- Witness for C2 (amended) at a missing tracking directory and at a store
with one well-formed tracking record. -/
theorem c2_tracked_files_amended_witness :
    tracked_files repo0 fsMissing =
      .err (.FailedToReadStoreDir .notFound (pathsDir repo0)) ∧
    (tracked_files repo0 fsOneStep = .panicked ∨
      ∃ names, tracked_files repo0 fsOneStep = .ok names) :=
  ⟨(c2_tracked_files_amended repo0 fsMissing).1 .notFound (by decide),
    (c2_tracked_files_amended repo0 fsOneStep).2 [⟨encKey aTxt, true⟩] (by decide)⟩

/-- Counterexample to C7 as stated: a tracking-record file named `!`
(malformed base64) makes `tracked_files` panic (the `unwrap` on
`URL_SAFE.decode`) rather than surface a typed error. -/
theorem c7_encoding_panic_counterexample :
    tracked_files repo0 fsBadName = .panicked := by
  decide

/-- Claim C7 (amended): encoding failures while `tracked_files` enumerates
the tracking directory do not surface as typed errors: a file entry whose
name is not valid base64 makes the operation panic, and an entry whose
decoded bytes are not valid UTF-8 is silently dropped from the (successful)
result. -/
theorem c7_tracked_files_encoding_amended (repo : Repository) (fs : FileStoreFS)
    (entries : List DirEntry) (he : fs.trackingDir = .ok entries) :
    ((∃ en ∈ entries, en.isFile = true ∧ decodeB64 en.name = none) →
      tracked_files repo fs = .panicked) ∧
    ((∀ en ∈ entries, en.isFile = true → (decodeB64 en.name).isSome = true) →
      ∃ decoded,
        decodeNames ((entries.filter (fun en => en.isFile)).map DirEntry.name) = some decoded ∧
        tracked_files repo fs = .ok (decoded.filterMap utf8Dec)) := by
  constructor
  · rintro ⟨en, hen, hf, hd⟩
    have hnone : decodeNames ((entries.filter (fun en => en.isFile)).map DirEntry.name) = none := by
      apply decodeNames_none
      exact ⟨en.name, List.mem_map_of_mem DirEntry.name (List.mem_filter.mpr ⟨hen, hf⟩), hd⟩
    simp [tracked_files, he, hnone]
  · intro hall
    obtain ⟨ds, hds⟩ := decodeNames_all_some
      ((entries.filter (fun en => en.isFile)).map DirEntry.name) (by
        intro n hn
        obtain ⟨en, hen, rfl⟩ := List.mem_map.mp hn
        have := List.mem_filter.mp hen
        exact hall en this.1 this.2)
    exact ⟨ds, hds, by simp [tracked_files, he, hds]⟩

/-- Witness for C7 (amended) at the `!`-named record (panic) and at a
well-formed store (successful listing). -/
theorem c7_tracked_files_encoding_amended_witness :
    tracked_files repo0 fsBadName = .panicked ∧
    ∃ decoded,
      decodeNames (([⟨encKey aTxt, true⟩] : List DirEntry).filter (fun en => en.isFile)
        |>.map DirEntry.name) = some decoded ∧
      tracked_files repo0 fsOneStep = .ok (decoded.filterMap utf8Dec) :=
  ⟨(c7_tracked_files_encoding_amended repo0 fsBadName [⟨"!".toList, true⟩] (by decide)).1
      ⟨⟨"!".toList, true⟩, by decide, by decide, by decide⟩,
    (c7_tracked_files_encoding_amended repo0 fsOneStep [⟨encKey aTxt, true⟩] (by decide)).2
      (by decide)⟩

/-! ## Claim C10: the deletion sentinel is a readable step index -/

theorem get_metadata_shape (fs : FileStoreFS) (p : Str) (m : FileMeta)
    (hm : get_metadata fs p = .ok m) :
    ∃ bs, findA fs.metaFiles (encKey p) = some bs ∧ m = parse_metadata bs := by
  unfold get_metadata at hm
  cases hf : findA fs.metaFiles (encKey p) with
  | none => rw [hf] at hm; exact absurd hm (by simp)
  | some bs =>
    rw [hf] at hm
    exact ⟨bs, rfl, (Except.ok.inj hm).symm⟩

theorem get_metadata_hash_length (fs : FileStoreFS) (p : Str) (m : FileMeta)
    (hm : get_metadata fs p = .ok m) : ∀ s ∈ m.steps, s.hash.length = 32 := by
  obtain ⟨bs, _, rfl⟩ := get_metadata_shape fs p m hm
  exact fun s hs => parse_metadata_hash_length bs s hs

/-- Claim C10: after `mark_file_removed(f)` the sentinel entry is a valid
step index of `f`'s metadata: `Store::read` at that index does not fail with
`PathDoesntExist` (the index resolves to the all-zero `ObjectPath`); it
fails with `FailedToReadObject` instead, given that no blob named by the
all-zero hash is stored. -/
theorem c10_sentinel_readable (fs : FileStoreFS) (p : Str) (m : FileMeta)
    (hm : get_metadata fs p = .ok m)
    (hz : findA fs.objects (hexStr zeroObj.hash) = none) :
    ∃ fs2, mark_file_removed fs p = .ok fs2 ∧
      get_metadata fs2 p = .ok ⟨m.steps ++ [zeroObj]⟩ ∧
      (m.steps ++ [zeroObj]).get? m.steps.length = some zeroObj ∧
      store_read fs2 ⟨m.steps.length, p⟩ = .error (.FailedToReadObject .notFound zeroObj) ∧
      (∀ rp, store_read fs2 ⟨m.steps.length, p⟩ ≠ .error (.PathDoesntExist rp)) := by
  have hmk : mark_file_removed fs p = .ok
      { fs with metaFiles :=
          insertA (encKey p) (write_metadata ⟨m.steps ++ [zeroObj]⟩) fs.metaFiles } := by
    simp [mark_file_removed, hm]
  set fs2 : FileStoreFS :=
    { fs with metaFiles :=
        insertA (encKey p) (write_metadata ⟨m.steps ++ [zeroObj]⟩) fs.metaFiles } with hfs2
  have hmeta2 : get_metadata fs2 p = .ok ⟨m.steps ++ [zeroObj]⟩ := by
    have hlens : ∀ s ∈ m.steps ++ [zeroObj], s.hash.length = 32 := by
      intro s hs
      rcases List.mem_append.mp hs with hs | hs
      · exact get_metadata_hash_length fs p m hm s hs
      · simp at hs
        subst hs
        simp [zeroObj]
    unfold get_metadata
    rw [show fs2.metaFiles =
        insertA (encKey p) (write_metadata ⟨m.steps ++ [zeroObj]⟩) fs.metaFiles from rfl]
    simp only [findA_insertA_self, metaRoundtrip ⟨m.steps ++ [zeroObj]⟩ hlens]
  have hget : (m.steps ++ [zeroObj]).get? m.steps.length = some zeroObj := by
    rw [List.get?_eq_getElem?]
    exact List.getElem?_concat_length m.steps zeroObj
  have hread : store_read fs2 ⟨m.steps.length, p⟩ =
      .error (.FailedToReadObject .notFound zeroObj) := by
    unfold store_read
    rw [show (⟨m.steps.length, p⟩ : RepoPathS).relative_path = p from rfl] at *
    rw [hmeta2]
    simp only [hget]
    rw [show fs2.objects = fs.objects from rfl, hz]
  refine ⟨fs2, hmk, hmeta2, hget, hread, ?_⟩
  intro rp h
  rw [hread] at h
  simp at h

/-- Witness for C10 at a one-step history: after marking `a.txt` removed,
reading step 1 (the sentinel) fails with the object-read error, not
`PathDoesntExist`. -/
theorem c10_sentinel_readable_witness :
    ∃ fs2, mark_file_removed fsOneStep aTxt = .ok fs2 ∧
      store_read fs2 ⟨1, aTxt⟩ = .error (.FailedToReadObject .notFound zeroObj) := by
  obtain ⟨fs2, h1, _, _, h4, _⟩ :=
    c10_sentinel_readable fsOneStep aTxt ⟨[⟨sampleHash⟩]⟩ (by decide) (by decide)
  exact ⟨fs2, h1, h4⟩

/-! ## Claim C1: the store-latest RepoState -/

/-- Claim C1 evaluated at the failing input: a store with one tracked file
`a.txt` having exactly one recorded step whose blob is present.
`from_latest` names the file at step `steps.len()` = 1 (not the last index
0), so `files()` does list the file but `read` fails with `PathDoesntExist`;
reading the actual last index 0 would have returned the blob's bytes. -/
theorem c1_from_latest_read_bug :
    from_latest repo0 fsOneStep = .ok [⟨1, aTxt⟩] ∧
    rsStoreFiles [⟨1, aTxt⟩] = [aTxt] ∧
    rsStoreRead fsOneStep [⟨1, aTxt⟩] aTxt =
      .error (.StoreError (.PathDoesntExist ⟨1, aTxt⟩)) ∧
    store_read fsOneStep ⟨0, aTxt⟩ = .ok [104, 105] :=
  ⟨by decide, by decide, by decide, by decide⟩

/-! ## Claim C4: content addressing in generate_step -/

theorem generate_step_ok (h3 : Bytes → Bytes) (repo : Repository) (fs : FileStoreFS)
    (p : Str) (c : Bytes) (m : FileMeta)
    (hrel : isRelative .unix p = true)
    (hw : findA fs.workFiles p = some c)
    (hm : get_metadata fs p = .ok m) :
    generate_step h3 repo fs p =
      (.ok ⟨h3 c⟩,
        { trackingDir := fs.trackingDir
          metaFiles := insertA (encKey p) (write_metadata ⟨m.steps ++ [⟨h3 c⟩]⟩) fs.metaFiles
          objects := insertA (hexStr (h3 c)) c fs.objects
          objectsDir := true
          workFiles := fs.workFiles },
        (if fs.objectsDir then [] else [FsEvent.mkObjectsDir]) ++
          [FsEvent.blobWrite (hexStr (h3 c)) c,
            FsEvent.metaWrite (encKey p) (write_metadata ⟨m.steps ++ [⟨h3 c⟩]⟩)]) := by
  obtain ⟨bs, hbs, hmparse⟩ := get_metadata_shape fs p m hm
  subst hmparse
  have hrp : Repository.relative_path repo p = some p := by
    simp [Repository.relative_path, hrel]
  by_cases hob : fs.objectsDir
  · simp [generate_step, add_step_to_metadata, get_metadata, hrp, hw, hob, hbs]
  · simp [generate_step, add_step_to_metadata, get_metadata, hrp, hw, hob, hbs]

/-- Counterexample to C4 as stated: calling `generate_step` twice on
unmodified content does return the same `ObjectPath` and is not an error,
but the second call still performs a blob write (`fs::copy` runs
unconditionally) — the write is not skipped. -/
theorem c4_second_write_counterexample :
    (generate_step h3c repo0 fsTracked aTxt).1 = .ok ⟨h3c [49]⟩ ∧
    (generate_step h3c repo0 (generate_step h3c repo0 fsTracked aTxt).2.1 aTxt).1 =
      .ok ⟨h3c [49]⟩ ∧
    blobWrites (generate_step h3c repo0 (generate_step h3c repo0 fsTracked aTxt).2.1 aTxt).2.2 ≠
      [] :=
  ⟨by decide, by decide, by decide⟩

/-- Claim C4 (amended): `generate_step` called twice on a tracked file with
unmodified content returns the same `ObjectPath` both times and neither call
is an error; the blob store's final state is unchanged by the second call,
but the second call does perform one more blob write, overwriting the blob
with identical bytes (a no-op in effect, not in operations); and any other
tracked file with byte-identical content yields the same `ObjectPath`
(hence the same single blob name). -/
theorem c4_generate_step_amended (h3 : Bytes → Bytes) (repo : Repository) (fs : FileStoreFS)
    (p : Str) (c : Bytes) (m : FileMeta)
    (hrel : isRelative .unix p = true)
    (hw : findA fs.workFiles p = some c)
    (hm : get_metadata fs p = .ok m) :
    ∃ fs1 tr1 fs2 tr2,
      generate_step h3 repo fs p = (.ok ⟨h3 c⟩, fs1, tr1) ∧
      generate_step h3 repo fs1 p = (.ok ⟨h3 c⟩, fs2, tr2) ∧
      blobWrites tr1 = [(hexStr (h3 c), c)] ∧
      blobWrites tr2 = [(hexStr (h3 c), c)] ∧
      fs2.objects = fs1.objects ∧
      findA fs1.objects (hexStr (h3 c)) = some c ∧
      (∀ (q : Str) (mq : FileMeta), isRelative .unix q = true →
        findA fs.workFiles q = some c → get_metadata fs q = .ok mq →
        (generate_step h3 repo fs q).1 = .ok ⟨h3 c⟩) := by
  have h1 := generate_step_ok h3 repo fs p c m hrel hw hm
  set w1 : Bytes := write_metadata ⟨m.steps ++ [⟨h3 c⟩]⟩ with hw1
  set fs1 : FileStoreFS :=
    { trackingDir := fs.trackingDir
      metaFiles := insertA (encKey p) w1 fs.metaFiles
      objects := insertA (hexStr (h3 c)) c fs.objects
      objectsDir := true
      workFiles := fs.workFiles } with hfs1
  have hm1 : get_metadata fs1 p = .ok (parse_metadata w1) := by
    unfold get_metadata
    rw [show fs1.metaFiles = insertA (encKey p) w1 fs.metaFiles from rfl]
    simp [findA_insertA_self]
  have h2 := generate_step_ok h3 repo fs1 p c (parse_metadata w1) hrel hw hm1
  refine ⟨fs1, _, _, _, h1, h2, ?_, ?_, ?_, ?_, ?_⟩
  · cases hob : fs.objectsDir <;> simp [blobWrites, hob]
  · simp [blobWrites]
  · rw [show fs1.objects = insertA (hexStr (h3 c)) c fs.objects from rfl]
    exact insertA_insertA_self (hexStr (h3 c)) c fs.objects
  · rw [show fs1.objects = insertA (hexStr (h3 c)) c fs.objects from rfl]
    exact findA_insertA_self (hexStr (h3 c)) c fs.objects
  · intro q mq hqrel hqw hqm
    rw [generate_step_ok h3 repo fs q c mq hqrel hqw hqm]

/-- Witness for C4 (amended) on a tracked `a.txt` whose content is the byte
`1`. -/
theorem c4_generate_step_amended_witness :
    ∃ fs1 tr1 fs2 tr2,
      generate_step h3c repo0 fsTracked aTxt = (.ok ⟨h3c [49]⟩, fs1, tr1) ∧
      generate_step h3c repo0 fs1 aTxt = (.ok ⟨h3c [49]⟩, fs2, tr2) ∧
      blobWrites tr1 = [(hexStr (h3c [49]), [49])] ∧
      blobWrites tr2 = [(hexStr (h3c [49]), [49])] ∧
      fs2.objects = fs1.objects ∧
      findA fs1.objects (hexStr (h3c [49])) = some [49] ∧
      (∀ (q : Str) (mq : FileMeta), isRelative .unix q = true →
        findA fsTracked.workFiles q = some [49] → get_metadata fsTracked q = .ok mq →
        (generate_step h3c repo0 fsTracked q).1 = .ok ⟨h3c [49]⟩) :=
  c4_generate_step_amended h3c repo0 fsTracked aTxt [49] ⟨[]⟩
    (by decide) (by decide) (by decide)

/-! ## Helper lemmas: the diff engine stages -/

theorem newFilesOf_ok (E1 E2 : Type) (s2 : MState E2) :
    ∀ l : List Str, (∀ p ∈ l, ∃ b, s2.readR p = .ok b) →
    ∃ prs, (newFilesOf s2 l : Except (CompareError E1 E2) (List (Str × Bytes))) = .ok prs ∧
      prs.map Prod.fst = l ∧ (∀ pb ∈ prs, s2.readR pb.1 = .ok pb.2) := by
  intro l
  induction l with
  | nil => intro _; exact ⟨[], rfl, rfl, by simp⟩
  | cons p ps ih =>
    intro h
    obtain ⟨b, hb⟩ := h p (by simp)
    obtain ⟨prs, hprs, hmap, hread⟩ := ih (fun q hq => h q (by simp [hq]))
    refine ⟨(p, b) :: prs, by simp [newFilesOf, hb, hprs], by simp [hmap], ?_⟩
    intro pb hpb
    rcases List.mem_cons.mp hpb with rfl | hpb
    · exact hb
    · exact hread pb hpb

theorem changedPathsOf_ok {E1 E2 : Type} (h3 : Bytes → Bytes) (s1 : MState E1) (s2 : MState E2) :
    ∀ l : List Str, (∀ p ∈ l, (∃ b, s1.readR p = .ok b) ∧ (∃ b, s2.readR p = .ok b)) →
    ∃ cp, changedPathsOf h3 s1 s2 l = .ok cp ∧
      ∀ p, p ∈ cp ↔ (p ∈ l ∧ hashOk h3 s1 p ≠ hashOk h3 s2 p) := by
  intro l
  induction l with
  | nil => intro _; exact ⟨[], rfl, by simp⟩
  | cons p ps ih =>
    intro h
    obtain ⟨b1, hb1⟩ := (h p (by simp)).1
    obtain ⟨b2, hb2⟩ := (h p (by simp)).2
    obtain ⟨cp, hcp, hiff⟩ := ih (fun q hq => h q (by simp [hq]))
    have hh1 : hashOk h3 s1 p = some (h3 b1) := by unfold hashOk; rw [hb1]; rfl
    have hh2 : hashOk h3 s2 p = some (h3 b2) := by unfold hashOk; rw [hb2]; rfl
    by_cases hcmp : h3 b1 = h3 b2
    · refine ⟨cp, by simp [changedPathsOf, hb1, hb2, hcp, hcmp], ?_⟩
      intro q
      rw [hiff q]
      constructor
      · rintro ⟨hq, hd⟩
        exact ⟨by simp [hq], hd⟩
      · rintro ⟨hq, hd⟩
        rcases List.mem_cons.mp hq with rfl | hq
        · exact absurd (by rw [hh1, hh2, hcmp]) hd
        · exact ⟨hq, hd⟩
    · refine ⟨p :: cp, by simp [changedPathsOf, hb1, hb2, hcp, hcmp], ?_⟩
      intro q
      constructor
      · intro hq
        rcases List.mem_cons.mp hq with rfl | hq
        · refine ⟨by simp, ?_⟩
          rw [hh1, hh2]
          simp [hcmp]
        · obtain ⟨hm, hd⟩ := (hiff q).mp hq
          exact ⟨by simp [hm], hd⟩
      · rintro ⟨hq, hd⟩
        rcases List.mem_cons.mp hq with rfl | hq
        · simp
        · simp [(hiff q).mpr ⟨hq, hd⟩]

theorem changedPairsOf_ok {E1 E2 : Type} (s1 : MState E1) (s2 : MState E2) :
    ∀ l : List Str, (∀ p ∈ l, (∃ b, s1.readR p = .ok b) ∧ (∃ b, s2.readR p = .ok b)) →
    ∃ prs, changedPairsOf s1 s2 l = .ok prs ∧ prs.map Prod.fst = l := by
  intro l
  induction l with
  | nil => intro _; exact ⟨[], rfl, rfl⟩
  | cons p ps ih =>
    intro h
    obtain ⟨b1, hb1⟩ := (h p (by simp)).1
    obtain ⟨b2, hb2⟩ := (h p (by simp)).2
    obtain ⟨prs, hprs, hmap⟩ := ih (fun q hq => h q (by simp [hq]))
    exact ⟨(p, .byBytes b1 b2) :: prs,
      by simp [changedPairsOf, hb1, hb2, hprs], by simp [hmap]⟩

/-- Claim C6: `compare_states` partitions files exactly — new files are the
new state's paths absent from the old, carrying bytes read from the new
state; deleted files are the old state's paths absent from the new; changed
files are the paths in both whose content hashes differ; a path in both
states with equal hashes appears in none of the three sets.  In particular
the spec's example (old `{a.txt: "1", b.txt: "2"}`, new
`{a.txt: "1", b.txt: "3", c.txt: "4"}`) yields new `{c.txt}`, changed
`{b.txt}`, deleted `{}` (blake3 instantiated with an injective stand-in). -/
theorem c6_compare_states_partition :
    (∀ (E1 E2 : Type) (h3 : Bytes → Bytes) (s1 : MState E1) (s2 : MState E2)
      (f1 f2 : List Str),
      s1.filesR = .ok f1 → s2.filesR = .ok f2 →
      (∀ p ∈ f1, ∃ b, s1.readR p = .ok b) →
      (∀ p ∈ f2, ∃ b, s2.readR p = .ok b) →
      ∃ d, compare_states h3 s1 s2 = .ok d ∧
        (∀ p b, (p, b) ∈ d.new_files → p ∈ f2 ∧ p ∉ f1 ∧ s2.readR p = .ok b) ∧
        (∀ p, p ∈ f2 → p ∉ f1 → ∃ b, (p, b) ∈ d.new_files) ∧
        (∀ p, p ∈ d.deleted_files ↔ p ∈ f1 ∧ p ∉ f2) ∧
        (∀ p, (∃ fd, (p, fd) ∈ d.changed_files) ↔
          (p ∈ f2 ∧ p ∈ f1 ∧ hashOk h3 s1 p ≠ hashOk h3 s2 p)) ∧
        (∀ p, p ∈ f1 → p ∈ f2 → hashOk h3 s1 p = hashOk h3 s2 p →
          (∀ b, (p, b) ∉ d.new_files) ∧ p ∉ d.deleted_files ∧
            ∀ fd, (p, fd) ∉ d.changed_files)) ∧
    compare_states idh oldSt newSt =
      .ok ⟨[(cTxt, [52])], [(bTxt, .byBytes [50] [51])], []⟩ := by
  constructor
  · intro E1 E2 h3 s1 s2 f1 f2 hf1 hf2 hr1 hr2
    obtain ⟨nf, hnf, hnfmap, hnfread⟩ := newFilesOf_ok E1 E2 s2
      (f2.filter (fun f => !decide (f ∈ f1)))
      (fun p hp => hr2 p (List.mem_filter.mp hp).1)
    have hboth : ∀ p ∈ f2.filter (fun f => decide (f ∈ f1)),
        (∃ b, s1.readR p = .ok b) ∧ (∃ b, s2.readR p = .ok b) := by
      intro p hp
      obtain ⟨hp2, hp1⟩ := List.mem_filter.mp hp
      exact ⟨hr1 p (by simpa using hp1), hr2 p hp2⟩
    obtain ⟨cp, hcp, hcpiff⟩ := changedPathsOf_ok h3 s1 s2
      (f2.filter (fun f => decide (f ∈ f1))) hboth
    obtain ⟨cps, hcps, hcpsmap⟩ := changedPairsOf_ok s1 s2 cp
      (fun p hp => hboth p ((hcpiff p).mp hp).1)
    refine ⟨⟨nf, cps, f1.filter (fun f => !decide (f ∈ f2))⟩,
      by simp [compare_states, hf1, hf2, hnf, hcp, hcps], ?_, ?_, ?_, ?_, ?_⟩
    · intro p b hpb
      have hp : p ∈ f2.filter (fun f => !decide (f ∈ f1)) := by
        rw [← hnfmap]
        exact List.mem_map_of_mem Prod.fst hpb
      obtain ⟨hp2, hp1⟩ := List.mem_filter.mp hp
      exact ⟨hp2, by simpa using hp1, hnfread (p, b) hpb⟩
    · intro p hp2 hp1
      have hp : p ∈ nf.map Prod.fst := by
        rw [hnfmap]
        exact List.mem_filter.mpr ⟨hp2, by simpa using hp1⟩
      obtain ⟨pb, hpb, hfst⟩ := List.mem_map.mp hp
      refine ⟨pb.2, ?_⟩
      rw [← hfst, Prod.mk.eta]
      exact hpb
    · intro p
      simp [List.mem_filter]
    · intro p
      constructor
      · rintro ⟨fd, hfd⟩
        have hp : p ∈ cp := by
          rw [← hcpsmap]
          exact List.mem_map_of_mem Prod.fst hfd
        obtain ⟨hmem, hd⟩ := (hcpiff p).mp hp
        obtain ⟨hp2, hp1⟩ := List.mem_filter.mp hmem
        exact ⟨hp2, by simpa using hp1, hd⟩
      · rintro ⟨hp2, hp1, hd⟩
        have hp : p ∈ cps.map Prod.fst := by
          rw [hcpsmap]
          exact (hcpiff p).mpr ⟨List.mem_filter.mpr ⟨hp2, by simpa using hp1⟩, hd⟩
        obtain ⟨pb, hpb, hfst⟩ := List.mem_map.mp hp
        refine ⟨pb.2, ?_⟩
        rw [← hfst, Prod.mk.eta]
        exact hpb
    · intro p hp1 hp2 hheq
      refine ⟨?_, ?_, ?_⟩
      · intro b hpb
        have hp : p ∈ f2.filter (fun f => !decide (f ∈ f1)) := by
          rw [← hnfmap]
          exact List.mem_map_of_mem Prod.fst hpb
        have := (List.mem_filter.mp hp).2
        simp at this
        exact this hp1
      · intro hp
        have := (List.mem_filter.mp hp).2
        simp at this
        exact this hp2
      · intro fd hfd
        have hp : p ∈ cp := by
          rw [← hcpsmap]
          exact List.mem_map_of_mem Prod.fst hfd
        exact ((hcpiff p).mp hp).2 hheq
  · decide

/-- Witness for C6 (general part) at the spec's example states. -/
theorem c6_compare_states_partition_witness :
    ∃ d, compare_states idh oldSt newSt = .ok d ∧
      (∀ p, p ∈ d.deleted_files ↔ p ∈ [aTxt, bTxt] ∧ p ∉ [aTxt, bTxt, cTxt]) := by
  obtain ⟨d, hd, _, _, hdel, _, _⟩ :=
    c6_compare_states_partition.1 Unit Unit idh oldSt newSt [aTxt, bTxt] [aTxt, bTxt, cTxt]
      rfl rfl
      (by
        intro p hp
        rcases List.mem_cons.mp hp with rfl | hp
        · exact ⟨[49], by decide⟩
        · rcases List.mem_cons.mp hp with rfl | hp
          · exact ⟨[50], by decide⟩
          · simp at hp)
      (by
        intro p hp
        rcases List.mem_cons.mp hp with rfl | hp
        · exact ⟨[49], by decide⟩
        · rcases List.mem_cons.mp hp with rfl | hp
          · exact ⟨[51], by decide⟩
          · rcases List.mem_cons.mp hp with rfl | hp
            · exact ⟨[52], by decide⟩
            · simp at hp)
  exact ⟨d, hd, hdel⟩
